import Mathlib

/-!
Verification development for the YOLOv2 data generator
(`src/utils/data_generator.py`).

The Python module is shallowly embedded below.  Machine floats are
modelled by exact rationals (`ℚ`), numpy tensors by total functions from
index tuples, Python lists by Lean lists, and the fallible parts
(missing class names) by `Option`.  Names follow the source where Lean
allows it.  External collaborators that live outside the repository
slice under inspection (`utils/box.py`, `utils/augment_img.py`,
`cfg.py`) are modelled from the specification and marked as such in
their doc comments.
-/

set_option autoImplicit false
set_option maxRecDepth 8000

namespace DataGen

/-- Python `int()` applied to a nonnegative-or-negative rational:
truncation toward zero (`int(1.9) = 1`, `int(-1.9) = -1`). -/
def pyInt (q : ℚ) : ℤ :=
  if 0 ≤ q then Int.floor q else -Int.floor (-q)

/-! ## Class-Balance Estimator — `calc_augment_level` (lines 169-181)

`np.unique(y[:,1], return_counts=True)` returns the distinct class
names together with their frequencies; `mean` is the average of those
frequencies; the scaling factor of a class is
`int(scaling_factor * (mean / frequency))`.

The embedding takes the list of class names (the second column of `y`)
as input.  `np.unique` sorts the distinct names; we keep them in order
of first occurrence instead, which changes neither the multiset of
frequencies (hence not `mean`) nor the per-class result. -/

/-- Frequency of class `c` in the label list (counts from `np.unique`). -/
def frequency (labels : List String) (c : String) : ℕ :=
  labels.count c

/-- The distinct class names occurring in the label list
(categories from `np.unique`, in order of first occurrence). -/
def categories (labels : List String) : List String :=
  labels.dedup

/-- Average number of samples per class:
`frequencies.mean(axis=0)` (line 177). -/
def meanFreq (labels : List String) : ℚ :=
  (((categories labels).map fun c => (frequency labels c : ℚ)).sum) /
    ((categories labels).length : ℚ)

/-- Per-class augmentation count,
`int(scaling_factor*(mean / row['frequency']))` (line 180). -/
def calc_augment_level (labels : List String) (scaling_factor : ℕ)
    (c : String) : ℤ :=
  pyInt ((scaling_factor : ℚ) * (meanFreq labels / (frequency labels c : ℚ)))

/-! ## Grid Encoder (lines 148-163)

One batch sample `b` writes into the zero tensor
`y_batch[b, c, r, :, :]` with `r = int(floor(xc * grid_w))`,
`c = int(floor(yc * grid_h))`, guarded by `r < grid_w and c < grid_h`.
The tensor is modelled as a total function of the index tuple
`(b, row, col, anchor, channel)`; rows and columns are kept on `ℤ`
because the computed `r`, `c` are Python ints (numpy wrap-around of a
negative index is not modelled; the claims only touch nonnegative
centroids).  A flat label vector is a list of rationals
`[xc, yc, w, h, objectness, class-encoding...]`. -/

/-- Grid column of a flat label vector:
`r = int(np.floor(labels[b][0] * grid_w))` (lines 155, 157). -/
def cellCol (label : List ℚ) (grid_w : ℕ) : ℤ :=
  Int.floor (label.getD 0 0 * (grid_w : ℚ))

/-- Grid row of a flat label vector:
`c = int(np.floor(labels[b][1] * grid_h))` (lines 156, 158). -/
def cellRow (label : List ℚ) (grid_h : ℕ) : ℤ :=
  Int.floor (label.getD 1 0 * (grid_h : ℚ))

/-- The population guard `r < grid_w and c < grid_h` (line 160). -/
def gridGuard (label : List ℚ) (grid_w grid_h : ℕ) : Bool :=
  decide (cellCol label grid_w < (grid_w : ℤ)) &&
    decide (cellRow label grid_h < (grid_h : ℤ))

/-- Channel `k` of the populated cell: channels `0:4` copy
`labels[b][..., :4]`, channel `4` is set to `1.0`, channels `5:` copy
`labels[b][..., 5:]` (lines 161-163).  The same value is written into
every anchor slot. -/
def cellContent (label : List ℚ) (k : ℕ) : ℚ :=
  if k = 4 then 1 else label.getD k 0

/-- One iteration of the loop `for b in range(batch_size)`
(lines 153-163), stated pointwise: when the guard holds, every anchor
slot and channel of cell `(c, r)` of sample `b` is overwritten with the
cell content; every other entry keeps its previous value. -/
def encodeStep (t : ℕ → ℤ → ℤ → ℕ → ℕ → ℚ) (b : ℕ) (label : List ℚ)
    (grid_w grid_h : ℕ) : ℕ → ℤ → ℤ → ℕ → ℕ → ℚ :=
  fun b' row col _a k =>
    if gridGuard label grid_w grid_h ∧ b' = b ∧
        row = cellRow label grid_h ∧ col = cellCol label grid_w then
      cellContent label k
    else t b' row col _a k

/-- The encoder loop run for samples `0, …, batch_size - 1` over the
zero tensor `np.zeros((batch_size, grid_h, grid_w, N_ANCHORS,
5 + N_CLASSES))` (lines 148, 153-163); `labels.getD b []` is
`Y[z*batch_size:...][b]`. -/
def encodeLoop (labels : List (List ℚ)) (grid_w grid_h : ℕ) :
    ℕ → (ℕ → ℤ → ℤ → ℕ → ℕ → ℚ)
  | 0 => fun _ _ _ _ _ => 0
  | b + 1 =>
      encodeStep (encodeLoop labels grid_w grid_h b) b (labels.getD b [])
        grid_w grid_h

/-- Label-grid tensor of one sub-batch: the loop run to `batch_size`. -/
def y_batch (labels : List (List ℚ)) (grid_w grid_h batch_size : ℕ) :
    ℕ → ℤ → ℤ → ℕ → ℕ → ℚ :=
  encodeLoop labels grid_w grid_h batch_size

/-- Single-sample view of the encoder: the slice `y_batch[b]` as a
function of (row, col, anchor, channel). -/
def encodeSample (label : List ℚ) (grid_w grid_h : ℕ) :
    ℤ → ℤ → ℕ → ℕ → ℚ :=
  fun row col _a k =>
    if gridGuard label grid_w grid_h ∧
        row = cellRow label grid_h ∧ col = cellCol label grid_w then
      cellContent label k
    else 0

/-- A grid cell of one batch sample counts as populated when some
anchor slot and channel of it holds a nonzero value. -/
def cellPopulated (t : ℕ → ℤ → ℤ → ℕ → ℕ → ℚ) (b : ℕ) (row col : ℤ) :
    Prop :=
  ∃ a k, t b row col a k ≠ 0

/-! ## Batch Scheduler — slicing (lines 69, 139, 150, 165)

`slices = int(len(x) / batch_size)` counts the raw slices per epoch;
after expansion the sample list is cut into
`range(int(len(X) / batch_size))` sub-batches
`X[z*batch_size:(z*batch_size)+batch_size]`. -/

/-- Raw slice count per epoch, `slices = int(len(x) / batch_size)`
(line 69): floor division of nonnegative integers. -/
def slices (lenx batch_size : ℕ) : ℕ := lenx / batch_size

/-- Sub-batch `z` of the expanded sample list,
`X[z * batch_size:(z * batch_size) + batch_size]` (lines 150, 165). -/
def subBatch {α : Type} (X : List α) (batch_size z : ℕ) : List α :=
  (X.drop (z * batch_size)).take batch_size

/-- Number of sub-batches of the expanded slice,
`range(int(len(X) / batch_size))` (line 139). -/
def numSubBatches {α : Type} (X : List α) (batch_size : ℕ) : ℕ :=
  X.length / batch_size

/-! ## Sample Builder (lines 89-135)

The loop body for one `(filename, label)` entry.  External
collaborators (`cv2`, `utils/box.py`, `utils/augment_img.py`, the
hierarchy encoder) are not part of the repository slice under `src/`;
they are modelled from the specification and marked below.  Only the
spatial size of an image is observable to the generator logic. -/

/-- An image carried through the pipeline, observable through its
spatial size `img.shape` (line 96). -/
structure Image where
  width : ℚ
  height : ℚ
deriving DecidableEq, Repr

/-- Modelled from the spec: `cv2.resize(img, (w, h))` — an external
collaborator of §4.3 step 2 — returns an image of the requested size. -/
def resize (_img : Image) (w h : ℚ) : Image := ⟨w, h⟩

/-- Modelled from the spec: the bounding-box record of `utils/box.py`
(§3): centroid `(xc, yc)` and size `(w, h)`. -/
structure Box where
  xc : ℚ
  yc : ℚ
  w : ℚ
  h : ℚ
deriving DecidableEq, Repr

/-- Modelled from the spec: `Box.to_relative_size` of `utils/box.py`
(§4.3 step 4 and glossary) divides the box coordinates by the image
width and height. -/
def Box.to_relative_size (b : Box) (size : ℚ × ℚ) : Box :=
  ⟨b.xc / size.1, b.yc / size.2, b.w / size.1, b.h / size.2⟩

/-- A point of an opencv-style corner box. -/
structure Pt where
  x : ℚ
  y : ℚ
deriving DecidableEq, Repr

/-- An opencv-style box: the two corner points `aug_box[0][0]` and
`aug_box[0][1]` (lines 125-126; a collection holding one box, matching
the `[0]` access pattern of §6). -/
structure CornerBox where
  p1 : Pt
  p2 : Pt
deriving DecidableEq, Repr

/-- Modelled from the spec: `Box.to_opencv_format` of `utils/box.py`,
the inverse of the §4.2 corner-to-centroid conversion: the corners
`(xc - w/2, yc - h/2)` and `(xc + w/2, yc + h/2)`. -/
def Box.to_opencv_format (b : Box) : CornerBox :=
  ⟨⟨b.xc - b.w / 2, b.yc - b.h / 2⟩, ⟨b.xc + b.w / 2, b.yc + b.h / 2⟩⟩

/-- Modelled from the spec: `convert_bbox` of `utils/box.py` (§4.2):
`xc = (x1+x2)/2`, `yc = (y1+y2)/2`, `w = |x2-x1|`, `h = |y2-y1|`. -/
def convert_bbox (x1 y1 x2 y2 : ℚ) : ℚ × ℚ × ℚ × ℚ :=
  ((x1 + x2) / 2, (y1 + y2) / 2, |x2 - x1|, |y2 - y1|)

/-- `convert_opencv_to_box` (lines 184-188): ravel the corner points,
convert to centroid form, build a `Box`. -/
def convert_opencv_to_box (box : CornerBox) : Box :=
  let c := convert_bbox box.p1.x box.p1.y box.p2.x box.p2.y
  ⟨c.1, c.2.1, c.2.2.1, c.2.2.2⟩

/-- The array form of a box, `np.array(box)` = `[xc, yc, w, h]`
(lines 115, 135). -/
def Box.toVec (b : Box) : List ℚ := [b.xc, b.yc, b.w, b.h]

/-- A flat label vector
`np.concatenate([np.array(box), [1.0], one_hot])` (lines 115, 135):
`[xc, yc, w, h, objectness=1, class-encoding...]`. -/
def flatLabel (b : Box) (one_hot : List ℚ) : List ℚ :=
  b.toVec ++ [1] ++ one_hot

/-- The out-of-bound test of lines 125-127:
`p1 = [width, height] - aug_box[0][0]`,
`p2 = [width, height] - aug_box[0][1]`, and the variant is skipped when
`np.any(p1 < 0) or np.any(p2 < 0)`. -/
def augBoxOutOfBound (width height : ℚ) (cb : CornerBox) : Bool :=
  (decide (width - cb.p1.x < 0) || decide (height - cb.p1.y < 0)) ||
    (decide (width - cb.p2.x < 0) || decide (height - cb.p2.y < 0))

/-- The index list `np.where(CLASSES == label)[0]`: positions of
`CLASSES` holding `label`, in increasing order. -/
def whereEq (classes : List String) (label : String) : List ℕ :=
  (List.range classes.length).filter fun i => classes.getD i "" = label

/-- The class-index lookup `np.where(CLASSES == label)[0][0]`
(line 109); the trailing `[0]` on an empty index array is an
out-of-bounds access, modelled by `none`. -/
def index_label (classes : List String) (label : String) : Option ℕ :=
  (whereEq classes label).head?

/-- The image argument of `random_transform(img, ...)` (line 122):
by then the loaded image has been resized to
`(IMG_INPUT, IMG_INPUT)` (line 97) and — augmentation being enabled —
to `(int(IMG_INPUT * multi_scale), int(IMG_INPUT * multi_scale))`
(lines 101-103). -/
def transformImage (orig : Image) (img_input : ℕ) (multi_scale : ℚ) :
    Image :=
  let img1 := resize orig (img_input : ℚ) (img_input : ℚ)
  resize img1 ((pyInt ((img_input : ℚ) * multi_scale) : ℚ))
    ((pyInt ((img_input : ℚ) * multi_scale) : ℚ))

/-- One raw dataset entry as the sample-builder loop sees it, bundled
with the relevant external-collaborator outputs: whether
`os.path.isfile(filename)` holds (line 92), the decoded image and its
original size (lines 95-96), the ground-truth box and class name
(line 90), and the opencv-form boxes returned by the external
`random_transform` on the successive augmentation iterations
(line 122; one list element per iteration of line 120, so the list
length is this sample's `aug_level`). -/
structure Entry where
  fileExists : Bool
  orig : Image
  bbox : Box
  label : String
  augBoxes : List CornerBox

/-- One augmentation iteration (lines 120-135): the variant is dropped
when the out-of-bound test fires (`continue`, line 128), otherwise its
box is converted to centroid form, normalized by the original image
size and appended as a flat label vector. -/
def augVariantVec (width height : ℚ) (one_hot : List ℚ)
    (cb : CornerBox) : Option (List ℚ) :=
  if augBoxOutOfBound width height cb then none
  else
    some (flatLabel
      ((convert_opencv_to_box cb).to_relative_size (width, height)) one_hot)

/-- Flat label vectors contributed by one existing entry
(lines 95-135): the class index is looked up (line 109, `none` on the
out-of-bounds failure), the base box is normalized by the original
image size and appended with objectness 1 (lines 113-115), and — when
augmentation is enabled — each in-bounds augmented variant is appended
after it (lines 117-135).  `encode` is the external
`HIER_TREE.encode_label` (line 110). -/
def sampleVectors (classes : List String) (encode : ℕ → List ℚ)
    (augment_data : Bool) (e : Entry) : Option (List (List ℚ)) :=
  match index_label classes e.label with
  | none => none
  | some i =>
      let one_hot := encode i
      let width := e.orig.width
      let height := e.orig.height
      let base := flatLabel (e.bbox.to_relative_size (width, height)) one_hot
      some (base ::
        (if augment_data then
          e.augBoxes.filterMap (augVariantVec width height one_hot)
        else []))

/-- The label half `Y` of one raw slice (the loop of lines 89-135):
entries whose file is missing are skipped (lines 92-94) and contribute
nothing; an entry whose class name fails the lookup aborts the
generator (IndexError at line 109), modelled by `none`. -/
def buildSliceY (classes : List String) (encode : ℕ → List ℚ)
    (augment_data : Bool) : List Entry → Option (List (List ℚ))
  | [] => some []
  | e :: rest =>
      if e.fileExists then
        match sampleVectors classes encode augment_data e,
            buildSliceY classes encode augment_data rest with
        | some ys, some rest' => some (ys ++ rest')
        | _, _ => none
      else buildSliceY classes encode augment_data rest

/-! ## Concrete data used by the example-bearing claims -/

/-- Class-name list realizing the frequencies `[100, 10, 1]` of the
end-to-end example. -/
def exampleLabels : List String :=
  List.replicate 100 "a" ++ List.replicate 10 "b" ++ ["c"]

/-- Flat label vector with centroid at relative
`(0.999999, 0.999999)`. -/
def edgeLabel : List ℚ :=
  [999999 / 1000000, 999999 / 1000000, 1 / 2, 1 / 2, 1, 1]

/-- Flat label vector with centroid at relative `(1.0, 1.0)`. -/
def boundaryLabel : List ℚ :=
  [1, 1, 1 / 2, 1 / 2, 1, 1]

/-! ## Helper lemmas -/

theorem encodeLoop_out (labels : List (List ℚ)) (grid_w grid_h n b : ℕ)
    (hb : n ≤ b) (row col : ℤ) (a k : ℕ) :
    encodeLoop labels grid_w grid_h n b row col a k = 0 := by
  induction n with
  | zero => rfl
  | succ m ih =>
      have hm : m ≤ b := Nat.le_of_succ_le hb
      have hne : b ≠ m := by omega
      show encodeStep (encodeLoop labels grid_w grid_h m) m
        (labels.getD m []) grid_w grid_h b row col a k = 0
      unfold encodeStep
      rw [if_neg (by tauto)]
      exact ih hm

/-- The loop writes each batch slice independently: slice `b` of the
final tensor is exactly the single-sample encoding of label `b`. -/
theorem encodeLoop_slice (labels : List (List ℚ)) (grid_w grid_h n b : ℕ)
    (hb : b < n) (row col : ℤ) (a k : ℕ) :
    encodeLoop labels grid_w grid_h n b row col a k =
      encodeSample (labels.getD b []) grid_w grid_h row col a k := by
  induction n with
  | zero => omega
  | succ m ih =>
      show encodeStep (encodeLoop labels grid_w grid_h m) m
        (labels.getD m []) grid_w grid_h b row col a k = _
      unfold encodeStep encodeSample
      by_cases hbm : b = m
      · subst hbm
        by_cases hcond : gridGuard (labels.getD b []) grid_w grid_h = true ∧
            row = cellRow (labels.getD b []) grid_h ∧
            col = cellCol (labels.getD b []) grid_w
        · rw [if_pos ⟨hcond.1, rfl, hcond.2⟩, if_pos hcond]
        · rw [if_neg (by tauto), if_neg hcond]
          exact encodeLoop_out labels grid_w grid_h b b (le_refl b) row col a k
      · have hb' : b < m := by omega
        rw [if_neg (by tauto)]
        exact ih hb'

/-- The guard in propositional form. -/
theorem gridGuard_iff (label : List ℚ) (grid_w grid_h : ℕ) :
    gridGuard label grid_w grid_h = true ↔
      cellCol label grid_w < (grid_w : ℤ) ∧
        cellRow label grid_h < (grid_h : ℤ) := by
  unfold gridGuard
  simp

theorem encodeSample_of_not_guard {label : List ℚ} {grid_w grid_h : ℕ}
    (hg : ¬ gridGuard label grid_w grid_h = true) (row col : ℤ) (a k : ℕ) :
    encodeSample label grid_w grid_h row col a k = 0 := by
  unfold encodeSample
  rw [if_neg (by tauto)]

theorem encodeSample_at_cell {label : List ℚ} {grid_w grid_h : ℕ}
    (hg : gridGuard label grid_w grid_h = true) (a k : ℕ) :
    encodeSample label grid_w grid_h (cellRow label grid_h)
      (cellCol label grid_w) a k = cellContent label k := by
  unfold encodeSample
  rw [if_pos ⟨hg, rfl, rfl⟩]

theorem encodeSample_off_cell {label : List ℚ} {grid_w grid_h : ℕ}
    {row col : ℤ}
    (h : ¬ (row = cellRow label grid_h ∧ col = cellCol label grid_w))
    (a k : ℕ) : encodeSample label grid_w grid_h row col a k = 0 := by
  unfold encodeSample
  rw [if_neg (by tauto)]

theorem cellContent_objectness (label : List ℚ) :
    cellContent label 4 = 1 := by
  unfold cellContent
  rw [if_pos rfl]

theorem cellContent_ne_four (label : List ℚ) {k : ℕ} (hk : k ≠ 4) :
    cellContent label k = label.getD k 0 := by
  unfold cellContent
  rw [if_neg hk]

theorem cellCol_edge : cellCol edgeLabel 13 = 12 := by
  unfold cellCol edgeLabel
  norm_num

theorem cellRow_edge : cellRow edgeLabel 13 = 12 := by
  unfold cellRow edgeLabel
  norm_num

theorem gridGuard_boundary (grid_w grid_h : ℕ) :
    gridGuard boundaryLabel grid_w grid_h = false := by
  have hcol : cellCol boundaryLabel grid_w = (grid_w : ℤ) := by
    unfold cellCol boundaryLabel
    norm_num
  unfold gridGuard
  rw [hcol]
  simp

theorem frequency_pos {labels : List String} {c : String}
    (hc : c ∈ labels) : 0 < frequency labels c := by
  unfold frequency
  exact List.count_pos_iff.mpr hc

theorem meanFreq_nonneg (labels : List String) : 0 ≤ meanFreq labels := by
  unfold meanFreq
  apply div_nonneg
  · apply List.sum_nonneg
    intro x hx
    obtain ⟨c, _, rfl⟩ := List.mem_map.mp hx
    positivity
  · positivity

theorem calc_augment_level_eq_floor {labels : List String} (s : ℕ)
    {c : String} (_hc : c ∈ labels) :
    calc_augment_level labels s c =
      Int.floor ((s : ℚ) * meanFreq labels / (frequency labels c : ℚ)) := by
  unfold calc_augment_level pyInt
  have hq : 0 ≤ (s : ℚ) * (meanFreq labels / (frequency labels c : ℚ)) := by
    apply mul_nonneg (by positivity)
    exact div_nonneg (meanFreq_nonneg labels) (by positivity)
  rw [if_pos hq, mul_div_assoc]

theorem exists_max_image {α : Type} (f : α → ℕ) :
    ∀ l : List α, l ≠ [] → ∃ a, a ∈ l ∧ ∀ b ∈ l, f b ≤ f a
  | [], h => absurd rfl h
  | a :: t, _ => by
      cases t with
      | nil =>
          refine ⟨a, List.mem_singleton_self a, ?_⟩
          intro b hb
          rw [List.mem_singleton.mp hb]
      | cons a' t' =>
          obtain ⟨m, hm, hmax⟩ :=
            exists_max_image f (a' :: t') (List.cons_ne_nil a' t')
          by_cases hc : f m ≤ f a
          · refine ⟨a, List.mem_cons_self a _, ?_⟩
            intro b hb
            rcases List.mem_cons.mp hb with h | h
            · rw [h]
            · exact le_trans (hmax b h) hc
          · refine ⟨m, List.mem_cons_of_mem a hm, ?_⟩
            intro b hb
            rcases List.mem_cons.mp hb with h | h
            · rw [h]; omega
            · exact hmax b h

theorem meanFreq_le_max {labels : List String} {c : String}
    (hmem : c ∈ categories labels)
    (hmax : ∀ c' ∈ categories labels,
      frequency labels c' ≤ frequency labels c) :
    meanFreq labels ≤ (frequency labels c : ℚ) := by
  unfold meanFreq
  have hne : categories labels ≠ [] := List.ne_nil_of_mem hmem
  have hlen : 0 < ((categories labels).length : ℚ) := by
    have := List.length_pos.mpr hne
    exact_mod_cast this
  rw [div_le_iff₀ hlen]
  have hbound :
      ((categories labels).map fun c' => (frequency labels c' : ℚ)).sum ≤
        ((categories labels).map fun c' =>
          (frequency labels c' : ℚ)).length •
            (frequency labels c : ℚ) := by
    apply List.sum_le_card_nsmul
    intro x hx
    obtain ⟨c', hc', rfl⟩ := List.mem_map.mp hx
    exact_mod_cast hmax c' hc'
  rw [List.length_map] at hbound
  calc ((categories labels).map fun c' => (frequency labels c' : ℚ)).sum
      ≤ (categories labels).length • (frequency labels c : ℚ) := hbound
    _ = (frequency labels c : ℚ) * ((categories labels).length : ℚ) := by
        rw [nsmul_eq_mul, mul_comm]

theorem augVariantVec_none {width height : ℚ} {cb : CornerBox}
    (h : augBoxOutOfBound width height cb = true) (one_hot : List ℚ) :
    augVariantVec width height one_hot cb = none := by
  unfold augVariantVec
  rw [if_pos h]

theorem augVariantVec_some {width height : ℚ} {cb : CornerBox}
    (h : augBoxOutOfBound width height cb = false) (one_hot : List ℚ) :
    augVariantVec width height one_hot cb =
      some (flatLabel
        ((convert_opencv_to_box cb).to_relative_size (width, height))
        one_hot) := by
  unfold augVariantVec
  rw [if_neg (by rw [h]; simp)]

theorem sampleVectors_eq {classes : List String} (encode : ℕ → List ℚ)
    (augment_data : Bool) (e : Entry) {i : ℕ}
    (hidx : index_label classes e.label = some i) :
    sampleVectors classes encode augment_data e =
      some (flatLabel
          (e.bbox.to_relative_size (e.orig.width, e.orig.height))
          (encode i) ::
        (if augment_data then
          e.augBoxes.filterMap
            (augVariantVec e.orig.width e.orig.height (encode i))
        else [])) := by
  unfold sampleVectors
  rw [hidx]

/-! ## Claim theorems -/

/-- C1: every sample of a batch handed to the Grid Encoder is assigned
to grid column `r = floor(xc · grid_w)` and grid row
`c = floor(yc · grid_h)` (the definitions `cellCol` and `cellRow`), and
that cell is populated exactly when `r < grid_w` and `c < grid_h`;
concretely, a centroid at relative `(0.999999, 0.999999)` on a 13×13
grid is assigned `r = c = 12` and its cell is populated, while a
centroid at `(1.0, 1.0)` fails the guard and is dropped on every grid
size. -/
theorem grid_assignment_and_boundary
    (labels : List (List ℚ)) (grid_w grid_h batch_size b : ℕ)
    (hb : b < batch_size) :
    (cellPopulated (y_batch labels grid_w grid_h batch_size) b
        (cellRow (labels.getD b []) grid_h)
        (cellCol (labels.getD b []) grid_w) ↔
      cellCol (labels.getD b []) grid_w < (grid_w : ℤ) ∧
        cellRow (labels.getD b []) grid_h < (grid_h : ℤ)) ∧
    (cellCol edgeLabel 13 = 12 ∧ cellRow edgeLabel 13 = 12 ∧
      cellPopulated (y_batch [edgeLabel] 13 13 1) 0 12 12) ∧
    (∀ gw gh : ℕ, gridGuard boundaryLabel gw gh = false ∧
      ∀ (row col : ℤ) (a k : ℕ),
        y_batch [boundaryLabel] gw gh 1 0 row col a k = 0) := by
  refine ⟨?_, ⟨cellCol_edge, cellRow_edge, ?_⟩, ?_⟩
  · constructor
    · rintro ⟨a, k, hne⟩
      rw [y_batch, encodeLoop_slice labels grid_w grid_h batch_size b hb]
        at hne
      by_cases hg : gridGuard (labels.getD b []) grid_w grid_h = true
      · exact (gridGuard_iff _ _ _).mp hg
      · exact absurd (encodeSample_of_not_guard hg _ _ a k) hne
    · intro hlt
      have hg : gridGuard (labels.getD b []) grid_w grid_h = true :=
        (gridGuard_iff _ _ _).mpr hlt
      refine ⟨0, 4, ?_⟩
      rw [y_batch, encodeLoop_slice labels grid_w grid_h batch_size b hb,
        encodeSample_at_cell hg, cellContent_objectness]
      norm_num
  · have hg : gridGuard edgeLabel 13 13 = true := by
      rw [gridGuard_iff, cellCol_edge, cellRow_edge]
      norm_num
    refine ⟨0, 4, ?_⟩
    rw [y_batch, encodeLoop_slice [edgeLabel] 13 13 1 0 (by norm_num)]
    show encodeSample edgeLabel 13 13 12 12 0 4 ≠ 0
    unfold encodeSample
    rw [if_pos ⟨hg, cellRow_edge.symm, cellCol_edge.symm⟩,
      cellContent_objectness]
    norm_num
  · intro gw gh
    refine ⟨gridGuard_boundary gw gh, ?_⟩
    intro row col a k
    rw [y_batch, encodeLoop_slice [boundaryLabel] gw gh 1 0 (by norm_num)]
    show encodeSample boundaryLabel gw gh row col a k = 0
    exact encodeSample_of_not_guard (by rw [gridGuard_boundary]; simp)
      row col a k

/-- Witness for the C1 theorem: a concrete one-sample batch on a 13×13
grid with the centroid at relative (0.999999, 0.999999). -/
theorem grid_assignment_and_boundary_witness :
    cellPopulated (y_batch [edgeLabel] 13 13 1) 0
        (cellRow ([edgeLabel].getD 0 []) 13)
        (cellCol ([edgeLabel].getD 0 []) 13) ↔
      cellCol ([edgeLabel].getD 0 []) 13 < (13 : ℤ) ∧
        cellRow ([edgeLabel].getD 0 []) 13 < (13 : ℤ) :=
  (grid_assignment_and_boundary [edgeLabel] 13 13 1 0 (by norm_num)).1

/-- C2: in every label-grid tensor produced by the Grid Encoder, each
sample populates at most one grid cell — the cell
`(cellRow, cellCol)` of its centroid — and exactly that one when the
boundary guard passes; within the populated cell every anchor slot
holds the identical copy of the box coordinates and class encoding with
objectness 1, every entry away from that cell is 0, and a
boundary-dropped sample's whole slice stays 0. -/
theorem single_cell_invariant
    (labels : List (List ℚ)) (grid_w grid_h batch_size b : ℕ)
    (hb : b < batch_size) :
    (∀ (row col : ℤ),
      cellPopulated (y_batch labels grid_w grid_h batch_size) b row col →
        row = cellRow (labels.getD b []) grid_h ∧
          col = cellCol (labels.getD b []) grid_w) ∧
    (gridGuard (labels.getD b []) grid_w grid_h = true →
      cellPopulated (y_batch labels grid_w grid_h batch_size) b
        (cellRow (labels.getD b []) grid_h)
        (cellCol (labels.getD b []) grid_w)) ∧
    (gridGuard (labels.getD b []) grid_w grid_h = false →
      ∀ (row col : ℤ) (a k : ℕ),
        y_batch labels grid_w grid_h batch_size b row col a k = 0) ∧
    (∀ (a a' k : ℕ),
      y_batch labels grid_w grid_h batch_size b
          (cellRow (labels.getD b []) grid_h)
          (cellCol (labels.getD b []) grid_w) a k =
        y_batch labels grid_w grid_h batch_size b
          (cellRow (labels.getD b []) grid_h)
          (cellCol (labels.getD b []) grid_w) a' k) ∧
    (gridGuard (labels.getD b []) grid_w grid_h = true →
      ∀ a : ℕ,
        y_batch labels grid_w grid_h batch_size b
          (cellRow (labels.getD b []) grid_h)
          (cellCol (labels.getD b []) grid_w) a 4 = 1 ∧
        ∀ k : ℕ, k ≠ 4 →
          y_batch labels grid_w grid_h batch_size b
            (cellRow (labels.getD b []) grid_h)
            (cellCol (labels.getD b []) grid_w) a k =
          (labels.getD b []).getD k 0) := by
  have hslice : ∀ (row col : ℤ) (a k : ℕ),
      y_batch labels grid_w grid_h batch_size b row col a k =
        encodeSample (labels.getD b []) grid_w grid_h row col a k :=
    fun row col a k =>
      encodeLoop_slice labels grid_w grid_h batch_size b hb row col a k
  refine ⟨?_, ?_, ?_, ?_, ?_⟩
  · intro row col hpop
    by_contra hne
    obtain ⟨a, k, hk⟩ := hpop
    rw [hslice] at hk
    exact hk (encodeSample_off_cell hne a k)
  · intro hg
    refine ⟨0, 4, ?_⟩
    rw [hslice, encodeSample_at_cell hg, cellContent_objectness]
    norm_num
  · intro hg row col a k
    rw [hslice]
    exact encodeSample_of_not_guard (by rw [hg]; simp) row col a k
  · intro a a' k
    rw [hslice, hslice]
    by_cases hg : gridGuard (labels.getD b []) grid_w grid_h = true
    · rw [encodeSample_at_cell hg, encodeSample_at_cell hg]
    · rw [encodeSample_of_not_guard hg, encodeSample_of_not_guard hg]
  · intro hg a
    constructor
    · rw [hslice, encodeSample_at_cell hg, cellContent_objectness]
    · intro k hk
      rw [hslice, encodeSample_at_cell hg, cellContent_ne_four _ hk]

/-- Witness for the C2 theorem: the concrete one-sample batch on a
13×13 grid has its populated cell at the centroid cell and objectness 1
there. -/
theorem single_cell_invariant_witness :
    cellPopulated (y_batch [edgeLabel] 13 13 1) 0
        (cellRow ([edgeLabel].getD 0 []) 13)
        (cellCol ([edgeLabel].getD 0 []) 13) :=
  (single_cell_invariant [edgeLabel] 13 13 1 0 (by norm_num)).2.1
    (by
      show gridGuard edgeLabel 13 13 = true
      rw [gridGuard_iff, cellCol_edge, cellRow_edge]
      norm_num)

/-- C3: for every class occurring in the labels, the Class-Balance
Estimator returns `floor(scaling_factor * mean / frequency(c))` with
`mean` the average class frequency; on frequencies `[100, 10, 1]` with
scaling factor 5 the mean is 37 and the counts are `[1, 18, 185]`. -/
theorem augment_level_formula :
    (∀ (labels : List String) (s : ℕ) (c : String), c ∈ labels →
      calc_augment_level labels s c =
        Int.floor ((s : ℚ) * meanFreq labels /
          (frequency labels c : ℚ))) ∧
    (meanFreq exampleLabels = 37 ∧
      calc_augment_level exampleLabels 5 "a" = 1 ∧
      calc_augment_level exampleLabels 5 "b" = 18 ∧
      calc_augment_level exampleLabels 5 "c" = 185) := by
  have hdedup : (categories exampleLabels) = ["a", "b", "c"] := by decide
  have hfa : frequency exampleLabels "a" = 100 := by decide
  have hfb : frequency exampleLabels "b" = 10 := by decide
  have hfc : frequency exampleLabels "c" = 1 := by decide
  have hmean : meanFreq exampleLabels = 37 := by
    unfold meanFreq
    rw [hdedup]
    simp [hfa, hfb, hfc]
    norm_num
  refine ⟨fun labels s c hc => calc_augment_level_eq_floor s hc,
    hmean, ?_, ?_, ?_⟩
  · unfold calc_augment_level pyInt
    rw [hmean, hfa]
    norm_num
  · unfold calc_augment_level pyInt
    rw [hmean, hfb]
    norm_num
  · unfold calc_augment_level pyInt
    rw [hmean, hfc]
    norm_num

/-- Witness for the C3 theorem at the concrete 111-sample dataset. -/
theorem augment_level_formula_witness :
    calc_augment_level exampleLabels 5 "a" =
      Int.floor ((5 : ℚ) * meanFreq exampleLabels /
        (frequency exampleLabels "a" : ℚ)) :=
  augment_level_formula.1 exampleLabels 5 "a" (by decide)

/-- C6: every class-balance count of a class that occurs is
nonnegative; a class with higher frequency never gets a larger count
than one with lower frequency; and on a non-empty label list at least
one class gets a count of at most the scaling factor. -/
theorem augment_level_order_properties :
    (∀ (labels : List String) (s : ℕ) (c : String), c ∈ labels →
      0 ≤ calc_augment_level labels s c) ∧
    (∀ (labels : List String) (s : ℕ) (c₁ c₂ : String),
      c₁ ∈ labels → c₂ ∈ labels →
      frequency labels c₂ ≤ frequency labels c₁ →
      calc_augment_level labels s c₁ ≤ calc_augment_level labels s c₂) ∧
    (∀ (labels : List String) (s : ℕ), labels ≠ [] →
      ∃ c, c ∈ labels ∧ calc_augment_level labels s c ≤ (s : ℤ)) := by
  refine ⟨?_, ?_, ?_⟩
  · intro labels s c hc
    rw [calc_augment_level_eq_floor s hc]
    apply Int.floor_nonneg.mpr
    apply div_nonneg (mul_nonneg (by positivity) (meanFreq_nonneg labels))
    positivity
  · intro labels s c₁ c₂ h₁ h₂ hfreq
    rw [calc_augment_level_eq_floor s h₁, calc_augment_level_eq_floor s h₂]
    apply Int.floor_le_floor
    have hpos₂ : (0 : ℚ) < (frequency labels c₂ : ℚ) := by
      exact_mod_cast frequency_pos h₂
    have hnum : 0 ≤ (s : ℚ) * meanFreq labels :=
      mul_nonneg (by positivity) (meanFreq_nonneg labels)
    have hcast : (frequency labels c₂ : ℚ) ≤ (frequency labels c₁ : ℚ) := by
      exact_mod_cast hfreq
    gcongr
  · intro labels s hne
    have hcat : categories labels ≠ [] := by
      unfold categories
      simpa using hne
    obtain ⟨c, hc, hmax⟩ :=
      exists_max_image (frequency labels) (categories labels) hcat
    have hcl : c ∈ labels := by
      unfold categories at hc
      exact List.mem_dedup.mp hc
    refine ⟨c, hcl, ?_⟩
    rw [calc_augment_level_eq_floor s hcl]
    have hpos : (0 : ℚ) < (frequency labels c : ℚ) := by
      exact_mod_cast frequency_pos hcl
    have hle : (s : ℚ) * meanFreq labels / (frequency labels c : ℚ) ≤
        (s : ℚ) := by
      rw [div_le_iff₀ hpos]
      calc (s : ℚ) * meanFreq labels
          ≤ (s : ℚ) * (frequency labels c : ℚ) := by
            apply mul_le_mul_of_nonneg_left (meanFreq_le_max hc hmax)
            positivity
        _ = (s : ℚ) * (frequency labels c : ℚ) := rfl
    calc Int.floor ((s : ℚ) * meanFreq labels / (frequency labels c : ℚ))
        ≤ Int.floor ((s : ℚ)) := Int.floor_le_floor hle
      _ = (s : ℤ) := by
          rw [Int.floor_natCast]

/-- Witness for the C6 theorem at the concrete 111-sample dataset. -/
theorem augment_level_order_properties_witness :
    0 ≤ calc_augment_level exampleLabels 5 "a" ∧
    calc_augment_level exampleLabels 5 "a" ≤
      calc_augment_level exampleLabels 5 "b" ∧
    ∃ c, c ∈ exampleLabels ∧ calc_augment_level exampleLabels 5 c ≤ (5 : ℤ) :=
  ⟨augment_level_order_properties.1 exampleLabels 5 "a" (by decide),
    augment_level_order_properties.2.1 exampleLabels 5 "a" "b"
      (by decide) (by decide) (by decide),
    augment_level_order_properties.2.2 exampleLabels 5 (by decide)⟩

/-- C7: every sub-batch cut from the expanded slice holds exactly
`batch_size` samples; the sub-batches together cover exactly the first
`numSubBatches · batch_size` expanded samples, so a trailing remainder
(always smaller than `batch_size`) is silently dropped; and when
`batch_size` exceeds the dataset size the raw slice count is 0, so an
epoch yields nothing. -/
theorem batch_slicing_exact (α : Type) :
    (∀ (X : List α) (batch_size z : ℕ), z < numSubBatches X batch_size →
      (subBatch X batch_size z).length = batch_size) ∧
    (∀ (X : List α) (batch_size : ℕ),
      ((List.range (numSubBatches X batch_size)).map
        (subBatch X batch_size)).flatten =
          X.take (numSubBatches X batch_size * batch_size)) ∧
    (∀ (X : List α) (batch_size : ℕ), 0 < batch_size →
      X.length - numSubBatches X batch_size * batch_size < batch_size) ∧
    (∀ (lenx batch_size : ℕ), lenx < batch_size →
      slices lenx batch_size = 0) := by
  have hjoin : ∀ (X : List α) (batch_size : ℕ) (n : ℕ),
      ((List.range n).map (subBatch X batch_size)).flatten =
        X.take (n * batch_size) := by
    intro X batch_size n
    induction n with
    | zero => simp
    | succ m ih =>
        rw [List.range_succ, List.map_append, List.flatten_append, ih]
        rw [Nat.succ_mul, List.take_add]
        simp [subBatch]
  refine ⟨?_, fun X batch_size => hjoin X batch_size _, ?_, ?_⟩
  · intro X batch_size z hz
    unfold numSubBatches at hz
    unfold subBatch
    rw [List.length_take, List.length_drop]
    have h1 : (z + 1) * batch_size ≤
        (X.length / batch_size) * batch_size :=
      Nat.mul_le_mul_right batch_size (Nat.succ_le_of_lt hz)
    have h2 : (X.length / batch_size) * batch_size ≤ X.length := by
      rw [Nat.mul_comm]
      exact Nat.mul_div_le X.length batch_size
    have h3 : (z + 1) * batch_size = z * batch_size + batch_size :=
      Nat.succ_mul z batch_size
    omega
  · intro X batch_size hbs
    unfold numSubBatches
    have h1 : batch_size * (X.length / batch_size) + X.length % batch_size
        = X.length := Nat.div_add_mod X.length batch_size
    rw [Nat.mul_comm] at h1
    have h2 : X.length % batch_size < batch_size :=
      Nat.mod_lt X.length hbs
    omega
  · intro lenx batch_size hlt
    unfold slices
    exact Nat.div_eq_of_lt hlt

/-- Witness for the C7 theorem on a concrete three-sample expansion
with batch size 2. -/
theorem batch_slicing_exact_witness :
    (subBatch ([[1], [2], [3]] : List (List ℚ)) 2 0).length = 2 ∧
    (([[1], [2], [3]] : List (List ℚ)).length -
      numSubBatches ([[1], [2], [3]] : List (List ℚ)) 2 * 2 < 2) ∧
    slices 1 2 = 0 :=
  ⟨(batch_slicing_exact (List ℚ)).1 [[1], [2], [3]] 2 0 (by decide),
    (batch_slicing_exact (List ℚ)).2.2.1 [[1], [2], [3]] 2 (by decide),
    (batch_slicing_exact (List ℚ)).2.2.2 1 2 (by decide)⟩

/-- C8: an entry whose image file does not exist is skipped and the
rest of the slice is processed unchanged — building a slice with the
missing entry inserted at any position gives exactly the result of
building the slice without it, so no exception is raised and no other
sample is affected. -/
theorem missing_file_skipped (classes : List String) (encode : ℕ → List ℚ)
    (augment : Bool) (es₁ es₂ : List Entry) (e : Entry)
    (he : e.fileExists = false) :
    buildSliceY classes encode augment (es₁ ++ e :: es₂) =
      buildSliceY classes encode augment (es₁ ++ es₂) := by
  induction es₁ with
  | nil =>
      show buildSliceY classes encode augment (e :: es₂) =
        buildSliceY classes encode augment es₂
      conv_lhs => unfold buildSliceY
      rw [he]
      simp
  | cons e' t ih =>
      show buildSliceY classes encode augment (e' :: (t ++ e :: es₂)) =
        buildSliceY classes encode augment (e' :: (t ++ es₂))
      unfold buildSliceY
      rw [ih]

/-- Witness for the C8 theorem: a slice holding one missing-file entry
between two present entries builds like the slice without it. -/
theorem missing_file_skipped_witness :
    buildSliceY ["s"] (fun _ => [1]) false
        ([⟨true, ⟨10, 10⟩, ⟨1, 1, 1, 1⟩, "s", []⟩] ++
          ⟨false, ⟨10, 10⟩, ⟨1, 1, 1, 1⟩, "zzz", []⟩ ::
            [⟨true, ⟨10, 10⟩, ⟨2, 2, 1, 1⟩, "s", []⟩]) =
      buildSliceY ["s"] (fun _ => [1]) false
        ([⟨true, ⟨10, 10⟩, ⟨1, 1, 1, 1⟩, "s", []⟩] ++
          [⟨true, ⟨10, 10⟩, ⟨2, 2, 1, 1⟩, "s", []⟩]) :=
  missing_file_skipped ["s"] (fun _ => [1]) false
    [⟨true, ⟨10, 10⟩, ⟨1, 1, 1, 1⟩, "s", []⟩]
    [⟨true, ⟨10, 10⟩, ⟨2, 2, 1, 1⟩, "s", []⟩]
    ⟨false, ⟨10, 10⟩, ⟨1, 1, 1, 1⟩, "zzz", []⟩ rfl

/-- C10: the class-name lookup `np.where(CLASSES == label)[0][0]`
succeeds exactly when the class name appears in the categories list
read at generator start; a slice holding an existing-file entry whose
class name is absent fails with the out-of-bounds lookup (modelled
`none`), so membership of every dataset class name in the categories
file is an unstated precondition of the interface. -/
theorem class_lookup_precondition :
    (∀ (classes : List String) (label : String),
      (index_label classes label).isSome = true ↔ label ∈ classes) ∧
    (∀ (classes : List String) (encode : ℕ → List ℚ) (augment : Bool)
        (e : Entry) (es : List Entry), e.fileExists = true →
      e.label ∉ classes →
      buildSliceY classes encode augment (e :: es) = none) := by
  have hiff : ∀ (classes : List String) (label : String),
      (index_label classes label).isSome = true ↔ label ∈ classes := by
    intro classes label
    unfold index_label
    rw [List.head?_isSome]
    constructor
    · intro hne
      obtain ⟨i, hi⟩ := List.exists_mem_of_ne_nil _ hne
      unfold whereEq at hi
      rw [List.mem_filter] at hi
      obtain ⟨hrange, heq⟩ := hi
      rw [List.mem_range] at hrange
      have : classes.getD i "" = classes.get ⟨i, hrange⟩ := by
        rw [List.getD_eq_getElem?_getD, List.getElem?_eq_getElem hrange]
        rfl
      rw [← of_decide_eq_true heq, this]
      exact List.get_mem classes i hrange
    · intro hmem
      obtain ⟨i, hi, hget⟩ := List.mem_iff_getElem.mp hmem
      have hmemf : i ∈ whereEq classes label := by
        unfold whereEq
        rw [List.mem_filter, List.mem_range]
        refine ⟨by simpa using hi, ?_⟩
        apply decide_eq_true
        rw [List.getD_eq_getElem?_getD, List.getElem?_eq_getElem hi]
        exact hget
      exact List.ne_nil_of_mem hmemf
  refine ⟨hiff, ?_⟩
  intro classes encode augment e es hfile habs
  have hnone : index_label classes e.label = none := by
    by_contra hne
    have : (index_label classes e.label).isSome = true := by
      cases h : index_label classes e.label with
      | none => exact absurd h hne
      | some i => rfl
    exact habs ((hiff classes e.label).mp this)
  have hsv : sampleVectors classes encode augment e = none := by
    unfold sampleVectors
    rw [hnone]
  cases hrest : buildSliceY classes encode augment es with
  | none =>
      unfold buildSliceY
      rw [hfile, hsv, hrest]
      simp
  | some rest' =>
      unfold buildSliceY
      rw [hfile, hsv, hrest]
      simp

/-- Witness for the C10 theorem: with categories `["s"]`, an
existing-file entry labelled `"zzz"` aborts the slice. -/
theorem class_lookup_precondition_witness :
    buildSliceY ["s"] (fun _ => [1]) false
      [⟨true, ⟨10, 10⟩, ⟨1, 1, 1, 1⟩, "zzz", []⟩] = none :=
  class_lookup_precondition.2 ["s"] (fun _ => [1]) false
    ⟨true, ⟨10, 10⟩, ⟨1, 1, 1, 1⟩, "zzz", []⟩ [] rfl (by decide)

/-- C4 counterexample: with a 100×100 image, an augmented variant whose
first corner is (-1, 10) — outside [0, width] × [0, height] because of
its negative x-coordinate — passes the out-of-bound test of
lines 125-127 and is appended, so the claim that a variant with a
corner outside those bounds is discarded fails on this input: the
builder returns two vectors (base plus the kept variant). -/
theorem oob_validation_counterexample :
    ((-1 : ℚ) < 0 ∧
      augBoxOutOfBound 100 100 ⟨⟨-1, 10⟩, ⟨10, 20⟩⟩ = false) ∧
    (sampleVectors ["s"] (fun _ => [1]) true
        ⟨true, ⟨100, 100⟩, ⟨5, 5, 2, 2⟩, "s",
          [⟨⟨-1, 10⟩, ⟨10, 20⟩⟩]⟩).map List.length = some 2 := by
  have hoob : augBoxOutOfBound 100 100 ⟨⟨-1, 10⟩, ⟨10, 20⟩⟩ = false := by
    unfold augBoxOutOfBound
    norm_num
  refine ⟨⟨by norm_num, hoob⟩, ?_⟩
  have hidx : index_label ["s"] "s" = some 0 := rfl
  rw [sampleVectors_eq (fun _ => [1]) true _ hidx]
  simp [augVariantVec_some hoob]

/-- C4 amended: the corner validation of the augmentation loop checks
only the upper bounds — a variant is discarded exactly when some corner
coordinate exceeds the image width or height, while negative
coordinates are not rejected — and the discard affects only that one
variant: the base sample is still appended first and the other
variants are processed independently. -/
theorem oob_validation_upper_bounds :
    (∀ (width height : ℚ) (cb : CornerBox),
      augBoxOutOfBound width height cb = true ↔
        (width < cb.p1.x ∨ height < cb.p1.y ∨
          width < cb.p2.x ∨ height < cb.p2.y)) ∧
    (∀ (width height : ℚ) (one_hot : List ℚ)
        (bs₁ bs₂ : List CornerBox) (bad : CornerBox),
      augBoxOutOfBound width height bad = true →
      (bs₁ ++ bad :: bs₂).filterMap (augVariantVec width height one_hot) =
        (bs₁ ++ bs₂).filterMap (augVariantVec width height one_hot)) ∧
    (∀ (classes : List String) (encode : ℕ → List ℚ) (augment : Bool)
        (e : Entry) (i : ℕ), index_label classes e.label = some i →
      ∃ rest, sampleVectors classes encode augment e =
        some (flatLabel
          (e.bbox.to_relative_size (e.orig.width, e.orig.height))
          (encode i) :: rest)) := by
  refine ⟨?_, ?_, ?_⟩
  · intro width height cb
    unfold augBoxOutOfBound
    simp [sub_neg]
    tauto
  · intro width height one_hot bs₁ bs₂ bad hbad
    simp [List.filterMap_append, List.filterMap_cons,
      augVariantVec_none hbad one_hot]
  · intro classes encode augment e i hidx
    exact ⟨_, sampleVectors_eq encode augment e hidx⟩

/-- Witness for the amended C4 theorem on concrete data: a variant
whose corner exceeds the width is discarded while the base sample of
the entry is appended first. -/
theorem oob_validation_upper_bounds_witness :
    (augBoxOutOfBound 100 100 ⟨⟨200, 10⟩, ⟨10, 10⟩⟩ = true ↔
      ((100 : ℚ) < 200 ∨ (100 : ℚ) < 10 ∨
        (100 : ℚ) < 10 ∨ (100 : ℚ) < 10)) ∧
    ([⟨⟨200, 10⟩, ⟨10, 10⟩⟩] : List CornerBox).filterMap
        (augVariantVec 100 100 [1]) =
      ([] : List CornerBox).filterMap (augVariantVec 100 100 [1]) ∧
    ∃ rest, sampleVectors ["s"] (fun _ => [1]) true
        ⟨true, ⟨100, 100⟩, ⟨5, 5, 2, 2⟩, "s", []⟩ =
      some (flatLabel
        (Box.to_relative_size ⟨5, 5, 2, 2⟩ (100, 100)) [1] :: rest) :=
  ⟨oob_validation_upper_bounds.1 100 100 ⟨⟨200, 10⟩, ⟨10, 10⟩⟩,
    oob_validation_upper_bounds.2.1 100 100 [1] [] []
      ⟨⟨200, 10⟩, ⟨10, 10⟩⟩ (by unfold augBoxOutOfBound; norm_num),
    oob_validation_upper_bounds.2.2 ["s"] (fun _ => [1]) true
      ⟨true, ⟨100, 100⟩, ⟨5, 5, 2, 2⟩, "s", []⟩ 0 rfl⟩

/-- C5 counterexample: for a 640×480 source image, canonical input
resolution 416 and multi-scale factor 1, the image handed to
`random_transform` at line 122 is the 416×416 twice-resized image, not
the original-scale image, so the claim that the transform is invoked on
the original-scale image fails on this input. -/
theorem transform_image_counterexample :
    transformImage ⟨640, 480⟩ 416 1 = ⟨416, 416⟩ ∧
      transformImage ⟨640, 480⟩ 416 1 ≠ ⟨640, 480⟩ := by
  have h : transformImage ⟨640, 480⟩ 416 1 = ⟨416, 416⟩ := by
    unfold transformImage resize pyInt
    norm_num
  refine ⟨h, ?_⟩
  rw [h]
  intro hcontra
  have hw := congrArg Image.width hcontra
  norm_num at hw

/-- C5 amended: the augmentation transform is invoked on the image
resized to the canonical input resolution and then to the multi-scale
size `int(IMG_INPUT * multi_scale)` — paired with the original-scale
box in corner-point form — and every box, base or augmented, is
normalized by dividing by the image's original pre-resize width and
height. -/
theorem transform_input_and_normalization :
    (∀ (orig : Image) (img_input : ℕ) (ms : ℚ),
      transformImage orig img_input ms =
        ⟨((pyInt ((img_input : ℚ) * ms) : ℤ) : ℚ),
          ((pyInt ((img_input : ℚ) * ms) : ℤ) : ℚ)⟩) ∧
    (∀ (classes : List String) (encode : ℕ → List ℚ) (augment : Bool)
        (e : Entry) (i : ℕ), index_label classes e.label = some i →
      sampleVectors classes encode augment e =
        some (flatLabel
            (e.bbox.to_relative_size (e.orig.width, e.orig.height))
            (encode i) ::
          (if augment then
            e.augBoxes.filterMap
              (augVariantVec e.orig.width e.orig.height (encode i))
          else []))) ∧
    (∀ (width height : ℚ) (one_hot : List ℚ) (cb : CornerBox),
      augBoxOutOfBound width height cb = false →
      augVariantVec width height one_hot cb =
        some (flatLabel
          ((convert_opencv_to_box cb).to_relative_size (width, height))
          one_hot)) :=
  ⟨fun _orig _ii _ms => rfl,
    fun _classes encode augment e _i hidx =>
      sampleVectors_eq encode augment e hidx,
    fun _w _h oh _cb hc => augVariantVec_some hc oh⟩

/-- Witness for the amended C5 theorem: a concrete entry with a 640×480
original image is normalized by (640, 480) and its transform input has
the multi-scale size. -/
theorem transform_input_and_normalization_witness :
    transformImage ⟨640, 480⟩ 416 (1 / 2) =
      ⟨((pyInt ((416 : ℚ) * (1 / 2)) : ℤ) : ℚ),
        ((pyInt ((416 : ℚ) * (1 / 2)) : ℤ) : ℚ)⟩ ∧
    sampleVectors ["s"] (fun _ => [1]) true
        ⟨true, ⟨640, 480⟩, ⟨5, 5, 2, 2⟩, "s", []⟩ =
      some [flatLabel (Box.to_relative_size ⟨5, 5, 2, 2⟩ (640, 480)) [1]] :=
  ⟨transform_input_and_normalization.1 ⟨640, 480⟩ 416 (1 / 2),
    transform_input_and_normalization.2.1 ["s"] (fun _ => [1]) true
      ⟨true, ⟨640, 480⟩, ⟨5, 5, 2, 2⟩, "s", []⟩ 0 rfl⟩

end DataGen
